import Mathlib

/-!
Verification of the TeXpresso engine-driver core (`engine_tex` / `sprotocol`)
against its natural-language specification.

The definitions below are a shallow embedding of the C++ sources:
* the snapshot-fleet decimation (`decimate_processes`),
* the driver state machine pieces (`record_seen`, `revert_trace`, process push/pop),
* the `need_snapshot` policy,
* the fence planner (`compute_fences`),
* the per-request handlers for `READ`, `OPEN` (read mode) and `WRIT` (stdout),
* the socket handshake (both the C++ `Channel::handshake` and the C
  `channel_handshake`).

Machine integers of the C code are modelled as `Int`/`Nat`; `INT_MAX` is the
literal 2147483647.  Buffers are `List Nat` (byte lists).  External effects
(real filesystem, decoders) appear as oracle parameters.
-/

namespace Texpresso

/-- `INT_MAX` of the C sources: `record_seen(self, e, INT_MAX, ...)` encodes
"the engine observed that the file does not exist". -/
def INT_MAX : Int := 2147483647

/-! ## Snapshot fleet decimation (`decimate_processes`, engine_tex part_003)

The C code (reached from the `CHLD` handler when `process_count == 32`):

    int i = 0, bound = (self->process_count - 8) / 2;
    while (i < bound) {
      close_process(&self->processes[2*i]);
      self->processes[i] = self->processes[2*i+1];
      i++;
    }
    for (int j = bound * 2; j < self->process_count; ++j) {
      self->processes[i] = self->processes[j]; i++;
    }
    self->process_count = i;

`decimateGo n l` mirrors the two loops: it consumes `n` pairs from the front,
sending the first element of each pair to the "killed" list (SIGTERM + close)
and the second to the "kept" list; the remaining elements are kept wholesale. -/
def decimateGo {α : Type} : Nat → List α → List α × List α
  | 0, l => ([], l)
  | n + 1, a :: b :: rest =>
      let p := decimateGo n rest
      (a :: p.1, b :: p.2)
  | _ + 1, l => ([], l)

/-- The process list remaining after `decimate_processes`. -/
def decimateKept {α : Type} (ps : List α) : List α :=
  (decimateGo ((ps.length - 8) / 2) ps).2

/-- The processes that `decimate_processes` kills (`close_process`:
`kill(pid, SIGTERM)` and `close(fd)`), in the order they are killed. -/
def decimateKilled {α : Type} (ps : List α) : List α :=
  (decimateGo ((ps.length - 8) / 2) ps).1

/-- Elements at even positions among the first `2*n` elements
(the ones `decimate_processes` kills). -/
def evenSel {α : Type} : Nat → List α → List α
  | 0, _ => []
  | n + 1, a :: _ :: rest => a :: evenSel n rest
  | _ + 1, _ => []

/-- Elements at odd positions among the first `2*n` elements
(the older snapshots that `decimate_processes` keeps). -/
def oddSel {α : Type} : Nat → List α → List α
  | 0, _ => []
  | n + 1, _ :: b :: rest => b :: oddSel n rest
  | _ + 1, _ => []

theorem decimateGo_eq {α : Type} :
    ∀ (n : Nat) (l : List α), 2 * n ≤ l.length →
      decimateGo n l = (evenSel n l, oddSel n l ++ l.drop (2 * n))
  | 0, l, _ => by simp [decimateGo, evenSel, oddSel]
  | n + 1, [], h => by simp at h
  | n + 1, [a], h => by simp at h; omega
  | n + 1, a :: b :: rest, h => by
      have hr : 2 * n ≤ rest.length := by
        simp [List.length_cons] at h; omega
      have ih := decimateGo_eq n rest hr
      have hdrop : (a :: b :: rest).drop (2 * (n + 1)) = rest.drop (2 * n) := by
        have : 2 * (n + 1) = (2 * n) + 1 + 1 := by omega
        simp [this, List.drop_succ_cons]
      simp [decimateGo, evenSel, oddSel, ih, hdrop]

theorem decimateGo_sublist {α : Type} :
    ∀ (n : Nat) (l : List α), (decimateGo n l).2.Sublist l
  | 0, l => by simp [decimateGo]
  | n + 1, [] => by simp [decimateGo]
  | n + 1, [a] => by simp [decimateGo]
  | n + 1, a :: b :: rest => by
      have ih := decimateGo_sublist n rest
      simpa [decimateGo] using (ih.cons₂ b).cons a

/-- The kept list is a sublist of the original fleet (ordering preserved). -/
theorem decimateKept_sublist {α : Type} (ps : List α) :
    (decimateKept ps).Sublist ps :=
  decimateGo_sublist _ ps

theorem oddSel_length {α : Type} :
    ∀ (n : Nat) (l : List α), 2 * n ≤ l.length → (oddSel n l).length = n
  | 0, _, _ => by simp [oddSel]
  | n + 1, [], h => by simp at h
  | n + 1, [a], h => by simp at h; omega
  | n + 1, a :: b :: rest, h => by
      have hr : 2 * n ≤ rest.length := by simp [List.length_cons] at h; omega
      simp [oddSel, oddSel_length n rest hr]

theorem evenSel_head {α : Type} (n : Nat) (a b : α) (l : List α) :
    (evenSel (n + 1) (a :: b :: l)).head? = some a := by
  simp [evenSel]

/-- A snapshot-fleet process record (`process_t` of engine.hpp); the journal
mark is omitted (opaque to decimation). -/
structure Process where
  pid : Int
  fd : Int
  traceLen : Nat
deriving DecidableEq, Repr

/-- A concrete full fleet of 32 distinct processes; index 0 is the root. -/
def fleet32 : List Process :=
  (List.range 32).map fun (i : Nat) => { pid := (i : Int), fd := ((100 + i : Nat) : Int), traceLen := i }

/-- C1, counterexample.  On a full fleet of 32 processes,
`decimate_processes` kills the root (`processes[0]` is the first process
passed to `close_process`, which sends `SIGTERM`), the root is not in the
resulting list, and the process at odd index 1 — which the claim says is
discarded — is kept. -/
theorem decimation_kills_root_cex :
    (Texpresso.decimateKilled fleet32).head? = some ⟨0, 100, 0⟩ ∧
    ⟨0, 100, 0⟩ ∉ Texpresso.decimateKept fleet32 ∧
    ⟨1, 101, 1⟩ ∈ Texpresso.decimateKept fleet32 := by
  refine ⟨by decide, by decide, by decide⟩

/-- C1, amended.  When the fleet holds 32 processes, decimation keeps the
most recent 8 (`ps.drop 24`) and, among the 24 older ones, keeps exactly the
odd-indexed processes; the even-indexed ones — the root at index 0 first —
are killed (`SIGTERM`).  The result has 20 processes and is a sublist of the
original (ordering preserved). -/
theorem decimation_keeps_odds_kills_evens (ps : List Process)
    (h : ps.length = 32) :
    decimateKept ps = oddSel 12 ps ++ ps.drop 24 ∧
    decimateKilled ps = evenSel 12 ps ∧
    (decimateKilled ps).head? = ps.head? ∧
    (decimateKept ps).length = 20 := by
  have h24 : 2 * 12 ≤ ps.length := by omega
  have hgo := decimateGo_eq 12 ps h24
  have hbound : (ps.length - 8) / 2 = 12 := by omega
  have hkept : decimateKept ps = oddSel 12 ps ++ ps.drop 24 := by
    simp only [decimateKept, hbound, hgo]
  have hkilled : decimateKilled ps = evenSel 12 ps := by
    simp only [decimateKilled, hbound, hgo]
  refine ⟨hkept, hkilled, ?_, ?_⟩
  · match ps, h with
    | a :: b :: rest, h => rw [hkilled]; exact evenSel_head 11 a b rest
  · rw [hkept]
    have := oddSel_length 12 ps h24
    simp [this, h]

/-- Witness for `decimation_keeps_odds_kills_evens` at the concrete fleet. -/
theorem decimation_keeps_odds_kills_evens_witness :
    decimateKept fleet32 = oddSel 12 fleet32 ++ fleet32.drop 24 ∧
    decimateKilled fleet32 = evenSel 12 fleet32 ∧
    (decimateKilled fleet32).head? = fleet32.head? ∧
    (decimateKept fleet32).length = 20 :=
  decimation_keeps_odds_kills_evens fleet32 (by decide)

/-! ## Driver state machine: processes, trace, `record_seen`, `revert_trace`

`MState` models the parts of `tex_engine` that the trace/fleet claims read:
the per-process `trace_len` values (`procs`, root first), the live trace
prefix (`trace`, whose length equals the head process's `trace_len`), and the
per-entry `seen` field of the VFS (`seen`, total map defaulting to −1 as
`lookup_or_create` initialises it). -/

structure TraceRec where
  entry : Nat
  seen : Int
  time : Int
deriving DecidableEq, Repr

instance : Inhabited TraceRec := ⟨⟨0, -1, 0⟩⟩

structure MState where
  procs : List Nat
  trace : List TraceRec
  seen : Nat → Int

/-- `get_process(self)->trace_len`: the head (most recent) process. -/
def headTL (s : MState) : Nat := (s.procs.getLast?).getD 0

def updSeen (m : Nat → Int) (e : Nat) (v : Int) : Nat → Int :=
  fun x => if x = e then v else m x

/-- The coalescing test of `record_seen`:

    p->trace_len > 0 && trace[p->trace_len-1].entry == entry &&
      (process_count <= 1 ||
       processes[process_count-2].trace_len != p->trace_len)

(the last conjunct disables coalescing across a snapshot boundary). -/
def coalesces (s : MState) (e : Nat) : Bool :=
  decide (0 < headTL s) &&
  decide ((s.trace.getD (headTL s - 1) default).entry = e) &&
  (decide (s.procs.length ≤ 1) ||
   decide (s.procs.getD (s.procs.length - 2) 0 ≠ headTL s))

/-- `record_seen(self, entry, seen, time)`.  Either coalesce into the last
record (only its `time` is rewritten) or append a record carrying the *prior*
`seen` value, then bump the head `trace_len`.  The `procs = []` guard mirrors
`get_process`'s abort (unreachable while a query is being answered). -/
def recordSeen (s : MState) (e : Nat) (v : Int) (t : Int) : MState :=
  if s.procs = [] then s
  else if coalesces s e then
    { s with
      trace := s.trace.set (headTL s - 1)
        { s.trace.getD (headTL s - 1) default with time := t },
      seen := updSeen s.seen e v }
  else
    { s with
      trace := s.trace.take (headTL s) ++ [⟨e, s.seen e, t⟩],
      seen := updSeen s.seen e v,
      procs := s.procs.dropLast ++ [headTL s + 1] }

/-- The `CHLD` handler's effect on the fleet: decimate when full (32), then
push a record whose `trace_len` equals the parent's (`p2->trace_len =
p->trace_len`). -/
def chldStep (s : MState) : MState :=
  if s.procs = [] then s
  else
    let s1 := if s.procs.length = 32 then { s with procs := decimateKept s.procs } else s
    { s1 with procs := s1.procs ++ [headTL s1] }

/-- `pop_process`: drop the head process.  (It also rolls the undo journal
back to the previous mark; the journal is not modelled — no settled claim
reads `seen` across a pop.) -/
def popStep (s : MState) : MState :=
  { s with procs := s.procs.dropLast }

/-- Driver events that touch the fleet/trace: `record_seen` (from `OPEN`,
`SEEN` and the `PASS` path of `OPEN`), a `CHLD` push, a process pop. -/
inductive MOp where
  | obs (e : Nat) (v : Int) (t : Int)
  | chld
  | pop
deriving DecidableEq, Repr

def applyOp (s : MState) : MOp → MState
  | .obs e v t => recordSeen s e v t
  | .chld => chldStep s
  | .pop => popStep s

/-- The state right after `prepare_process` launched the root. -/
def initMState : MState := { procs := [0], trace := [], seen := fun _ => -1 }

def runFrom (s : MState) (l : List MOp) : MState := l.foldl applyOp s

def runOps (l : List MOp) : MState := runFrom initMState l

/-- `revert_trace` applied to a block of records in reverse order (the
`while (reverted > trace_len) { reverted--; revert_trace(&trace[reverted]); }`
loop): each record restores its entry's `seen` to the recorded prior value,
last record first. -/
def revertSeen (recs : List TraceRec) (m : Nat → Int) : Nat → Int :=
  recs.foldr (fun r acc => updSeen acc r.entry r.seen) m

/-! ### C2: ordering of `trace_len` along the fleet -/

theorem mem_le_headTL (s : MState) (hp : s.procs.Pairwise (· ≤ ·)) :
    ∀ x ∈ s.procs, x ≤ headTL s := by
  intro x hx
  have hne : s.procs ≠ [] := List.ne_nil_of_mem hx
  have hlast : headTL s = s.procs.getLast hne := by
    simp [headTL, List.getLast?_eq_getLast _ hne]
  rw [hlast]
  have hdecomp := List.dropLast_append_getLast hne
  rw [← hdecomp] at hp hx
  rcases List.mem_append.mp hx with h | h
  · exact (List.pairwise_append.mp hp).2.2 x h _ (List.mem_singleton_self _)
  · simp only [List.mem_singleton] at h
    omega

theorem applyOp_pairwise (s : MState) (op : MOp)
    (hp : s.procs.Pairwise (· ≤ ·)) :
    (applyOp s op).procs.Pairwise (· ≤ ·) := by
  cases op with
  | obs e v t =>
    show (recordSeen s e v t).procs.Pairwise (· ≤ ·)
    unfold recordSeen
    by_cases hnil : s.procs = []
    · simp only [hnil, if_pos rfl]
      exact hp
    · by_cases hc : coalesces s e
      · simpa [hnil, hc] using hp
      · simp only [hnil, hc, if_false, Bool.false_eq_true]
        refine List.pairwise_append.mpr
          ⟨hp.sublist (List.dropLast_sublist _), by simp, ?_⟩
        intro a ha b hb
        simp only [List.mem_singleton] at hb
        subst hb
        have : a ≤ headTL s :=
          mem_le_headTL s hp a ((List.dropLast_sublist _).subset ha)
        omega
  | chld =>
    show (chldStep s).procs.Pairwise (· ≤ ·)
    unfold chldStep
    by_cases hnil : s.procs = []
    · simp only [hnil, if_pos rfl]
      exact hp
    · simp only [hnil, if_false]
      by_cases h32 : s.procs.length = 32
      · simp only [h32, if_pos rfl]
        set s1 : MState := { s with procs := decimateKept s.procs } with hs1
        have hp1 : s1.procs.Pairwise (· ≤ ·) :=
          hp.sublist (decimateKept_sublist _)
        refine List.pairwise_append.mpr ⟨hp1, by simp, ?_⟩
        intro a ha b hb
        simp only [List.mem_singleton] at hb
        subst hb
        exact mem_le_headTL s1 hp1 a ha
      · simp only [h32, if_neg, if_false]
        refine List.pairwise_append.mpr ⟨hp, by simp, ?_⟩
        intro a ha b hb
        simp only [List.mem_singleton] at hb
        subst hb
        exact mem_le_headTL s hp a ha
  | pop =>
    show (popStep s).procs.Pairwise (· ≤ ·)
    exact hp.sublist (List.dropLast_sublist _)

theorem runFrom_pairwise (l : List MOp) :
    ∀ s : MState, s.procs.Pairwise (· ≤ ·) →
      (runFrom s l).procs.Pairwise (· ≤ ·) := by
  induction l with
  | nil => intro s h; simpa [runFrom] using h
  | cons op l ih =>
    intro s h
    simpa [runFrom] using ih (applyOp s op) (applyOp_pairwise s op h)

/-- C2, amended.  At every state the driver machine can reach, the fleet's
`trace_len` values are weakly increasing (`t_i ≤ t_{i+1}`), not strictly:
`CHLD` pushes a process whose `trace_len` *equals* its parent's. -/
theorem fleet_traceLen_monotone (l : List MOp) :
    (runOps l).procs.Pairwise (· ≤ ·) :=
  runFrom_pairwise l initMState (by simp [initMState])

/-- C2, counterexample.  A realistic run — the root records its first `seen`
observation (`OPEN` of the primary), then a snapshot is taken (`FORK`/`CHLD`)
— reaches fleet `trace_len`s `[1, 1]`: immediately after the `CHLD` push the
list is *not* strictly increasing. -/
theorem fleet_traceLen_strict_cex :
    (runOps [MOp.obs 0 0 600, MOp.chld]).procs = [1, 1] ∧
    ¬ (runOps [MOp.obs 0 0 600, MOp.chld]).procs.Pairwise (· < ·) := by
  have h : (runOps [MOp.obs 0 0 600, MOp.chld]).procs = [1, 1] := by decide
  refine ⟨h, ?_⟩
  rw [h]
  intro hp
  exact absurd (List.rel_of_pairwise_cons hp (List.mem_singleton_self 1))
    (by omega)

/-! ### C9: trace reversibility -/

theorem updSeen_updSeen (m : Nat → Int) (e : Nat) (v w : Int) (x : Nat) :
    updSeen (updSeen m e v) e w x = updSeen m e w x := by
  unfold updSeen
  by_cases h : x = e <;> simp [h]

theorem updSeen_self (m : Nat → Int) (e : Nat) (x : Nat) :
    updSeen m e (m e) x = m x := by
  unfold updSeen
  by_cases h : x = e <;> simp [h]

theorem revertSeen_append (A B : List TraceRec) (m : Nat → Int) :
    revertSeen (A ++ B) m = revertSeen A (revertSeen B m) := by
  simp [revertSeen, List.foldr_append]

theorem revertSeen_congr (A : List TraceRec) (m₁ m₂ : Nat → Int)
    (h : ∀ x, m₁ x = m₂ x) : ∀ x, revertSeen A m₁ x = revertSeen A m₂ x := by
  induction A with
  | nil => exact h
  | cons r A ih =>
      intro x
      show updSeen (revertSeen A m₁) r.entry r.seen x
          = updSeen (revertSeen A m₂) r.entry r.seen x
      unfold updSeen
      by_cases hx : x = r.entry <;> simp [hx, ih x]

theorem set_last_eq {α : Type} :
    ∀ (B : List α) (r a : α), (B ++ [r]).set B.length a = B ++ [a]
  | [], _, _ => rfl
  | x :: B, r, a => by
      show x :: (B ++ [r]).set B.length a = x :: (B ++ [a])
      rw [set_last_eq B r a]

theorem getD_append_length {α : Type} [Inhabited α] :
    ∀ (B : List α) (r : α), (B ++ [r]).getD B.length default = r
  | [], _ => rfl
  | x :: B, r => by
      show (B ++ [r]).getD B.length default = r
      exact getD_append_length B r

theorem decimateGo_nil {α : Type} (n : Nat) :
    decimateGo n ([] : List α) = ([], []) := by
  cases n <;> rfl

theorem decimateGo_getLast? {α : Type} :
    ∀ (n : Nat) (l : List α), (decimateGo n l).2.getLast? = l.getLast?
  | 0, _ => rfl
  | _ + 1, [] => rfl
  | _ + 1, [_] => rfl
  | n + 1, a :: b :: rest => by
      cases rest with
      | nil => simp [decimateGo, decimateGo_nil]
      | cons c rest' =>
          have ih := decimateGo_getLast? n (c :: rest')
          obtain ⟨k, K, hK⟩ : ∃ k K, (decimateGo n (c :: rest')).2 = k :: K := by
            rcases h : (decimateGo n (c :: rest')).2 with _ | ⟨k, K⟩
            · rw [h] at ih
              rcases List.exists_cons_of_ne_nil
                  (l := (c :: rest').getLast? :: []) (by simp) with _
              simp only [List.getLast?_nil] at ih
              exact absurd ih.symm (by simp [List.getLast?_cons_cons])
            · exact ⟨k, K, rfl⟩
          simp only [decimateGo]
          rw [hK] at ih ⊢
          simp [List.getLast?_cons_cons, ih]

theorem decimateKept_getLast? {α : Type} (l : List α) :
    (decimateKept l).getLast? = l.getLast? :=
  decimateGo_getLast? _ l

/-- Per-op safety for reverting to prefix `p`: a coalescing `record_seen`
(which merges an observation into the trace record at index `trace_len − 1`
without recording the prior value) must not hit a record below `p`.  At a
snapshot boundary the code's own guard (`processes[count-2].trace_len !=
p->trace_len`) makes this automatic. -/
def safeOp (p : Nat) (s : MState) : MOp → Bool
  | MOp.obs e _ _ => !(coalesces s e) || decide (p < headTL s)
  | _ => true

def safeFrom (p : Nat) : MState → List MOp → Bool
  | _, [] => true
  | s, op :: l => safeOp p s op && safeFrom p (applyOp s op) l

theorem revert_step (s : MState) (op : MOp) (p : Nat)
    (hne : s.procs ≠ []) (hwf : headTL s = s.trace.length)
    (hp : p ≤ s.trace.length) (hopne : op ≠ MOp.pop)
    (hsafe : safeOp p s op = true) :
    (applyOp s op).procs ≠ [] ∧
    headTL (applyOp s op) = (applyOp s op).trace.length ∧
    p ≤ (applyOp s op).trace.length ∧
    (applyOp s op).trace.take p = s.trace.take p ∧
    ∀ x, revertSeen ((applyOp s op).trace.drop p) (applyOp s op).seen x =
         revertSeen (s.trace.drop p) s.seen x := by
  have hwfl : s.procs.getLast?.getD 0 = s.trace.length := hwf
  cases op with
  | pop => exact absurd rfl hopne
  | chld =>
      have hres : applyOp s MOp.chld =
          { s with procs :=
              (if s.procs.length = 32 then decimateKept s.procs else s.procs)
              ++ [headTL { s with procs :=
                (if s.procs.length = 32 then decimateKept s.procs else s.procs) }] } := by
        show chldStep s = _
        unfold chldStep
        rw [if_neg hne]
        by_cases h32 : s.procs.length = 32 <;> simp [h32]
      rw [hres]
      refine ⟨by simp, ?_, hp, rfl, fun _ => rfl⟩
      dsimp only [headTL]
      rw [List.getLast?_concat]
      by_cases h32 : s.procs.length = 32
      · rw [if_pos h32]
        dsimp only [Option.getD_some, headTL]
        rw [decimateKept_getLast?]
        exact hwfl
      · rw [if_neg h32]
        dsimp only [Option.getD_some, headTL]
        exact hwfl
  | obs e v t =>
      by_cases hc : coalesces s e = true
      · -- coalescing write into the record at index headTL − 1 ≥ p
        have hplt : p < headTL s := by
          simp only [safeOp, hc, Bool.not_true, Bool.false_or,
            decide_eq_true_eq] at hsafe
          exact hsafe
        have h0 : 0 < s.trace.length := by omega
        have htne : s.trace ≠ [] := List.ne_nil_of_length_pos h0
        have hdec := (List.dropLast_append_getLast htne).symm
        set B := s.trace.dropLast with hB
        set rl := s.trace.getLast htne with hrl
        have hBlen : s.trace.length = B.length + 1 := by
          rw [hdec]; simp
        have hidx : headTL s - 1 = B.length := by omega
        have hgetD : s.trace.getD (headTL s - 1) default = rl := by
          rw [hidx, hdec]
          exact getD_append_length B rl
        have hent : rl.entry = e := by
          have h2 := (by simpa [coalesces, Bool.and_eq_true, decide_eq_true_eq]
            using hc : (0 < headTL s ∧
              (s.trace.getD (headTL s - 1) default).entry = e) ∧
              (s.procs.length ≤ 1 ∨
               ¬s.procs.getD (s.procs.length - 2) 0 = headTL s))
          rw [hgetD] at h2
          exact h2.1.2
        have hpB : p ≤ B.length := by omega
        have hres : applyOp s (MOp.obs e v t) =
            { s with trace := B ++ [⟨rl.entry, rl.seen, t⟩],
                     seen := updSeen s.seen e v } := by
          show recordSeen s e v t = _
          unfold recordSeen
          rw [if_neg hne, if_pos hc, hgetD, hidx]
          conv => lhs; rw [hdec]
          rw [set_last_eq B rl ⟨rl.entry, rl.seen, t⟩]
        rw [hres]
        refine ⟨hne, ?_, ?_, ?_, ?_⟩
        · dsimp only [headTL]
          rw [List.length_append, List.length_singleton]
          omega
        · dsimp only
          rw [List.length_append, List.length_singleton]
          omega
        · dsimp only
          rw [List.take_append_of_le_length hpB]
          conv => rhs; rw [hdec]
          rw [List.take_append_of_le_length hpB]
        · intro x
          dsimp only
          rw [List.drop_append_of_le_length hpB]
          conv => rhs; rw [hdec]
          rw [List.drop_append_of_le_length hpB]
          rw [revertSeen_append, revertSeen_append]
          refine revertSeen_congr _ _ _ (fun y => ?_) x
          show updSeen (updSeen s.seen e v) rl.entry rl.seen y
              = updSeen s.seen rl.entry rl.seen y
          rw [hent]
          exact updSeen_updSeen s.seen e v rl.seen y
      · -- fresh record appended at index headTL = trace.length
        have hcf : coalesces s e = false := by
          simpa using hc
        have htake : s.trace.take (headTL s) = s.trace := by
          rw [hwf]; exact List.take_length _
        have hres : applyOp s (MOp.obs e v t) =
            { s with trace := s.trace ++ [⟨e, s.seen e, t⟩],
                     seen := updSeen s.seen e v,
                     procs := s.procs.dropLast ++ [headTL s + 1] } := by
          show recordSeen s e v t = _
          unfold recordSeen
          rw [if_neg hne, hcf]
          simp only [Bool.false_eq_true, if_false, htake]
        rw [hres]
        refine ⟨by simp, ?_, ?_, ?_, ?_⟩
        · dsimp only [headTL]
          rw [List.getLast?_concat]
          dsimp only [Option.getD_some]
          rw [List.length_append, List.length_singleton]
          omega
        · dsimp only
          rw [List.length_append, List.length_singleton]
          omega
        · exact List.take_append_of_le_length hp
        · intro x
          dsimp only
          rw [List.drop_append_of_le_length hp, revertSeen_append]
          refine revertSeen_congr _ _ _ (fun y => ?_) x
          show updSeen (updSeen s.seen e v) e (s.seen e) y = s.seen y
          rw [updSeen_updSeen s.seen e v (s.seen e) y]
          exact updSeen_self s.seen e y

theorem revert_restores_aux :
    ∀ (l : List MOp) (p : Nat) (s : MState), s.procs ≠ [] →
      headTL s = s.trace.length → p ≤ s.trace.length →
      safeFrom p s l = true → MOp.pop ∉ l →
      (runFrom s l).trace.take p = s.trace.take p ∧
      ∀ x, revertSeen ((runFrom s l).trace.drop p) (runFrom s l).seen x =
           revertSeen (s.trace.drop p) s.seen x
  | [], p, s, _, _, _, _, _ => ⟨rfl, fun _ => rfl⟩
  | op :: l, p, s, hne, hwf, hp, hsafe, hnp => by
      have hsplit : safeOp p s op = true ∧ safeFrom p (applyOp s op) l = true := by
        simpa [safeFrom, Bool.and_eq_true] using hsafe
      have hopne : op ≠ MOp.pop := fun h => hnp (h ▸ List.mem_cons_self _ _)
      have hnp' : MOp.pop ∉ l := fun h => hnp (List.mem_cons_of_mem _ h)
      obtain ⟨h1, h2, h3, h4, h5⟩ :=
        revert_step s op p hne hwf hp hopne hsplit.1
      have ih := revert_restores_aux l p (applyOp s op) h1 h2 h3 hsplit.2 hnp'
      have hrun : runFrom s (op :: l) = runFrom (applyOp s op) l := rfl
      rw [hrun]
      exact ⟨ih.1.trans h4, fun x => (ih.2 x).trans (h5 x)⟩

/-- C9, amended.  Fix a state `s` whose trace has length `p` (a well-formed
point: the head `trace_len` equals the trace length).  Run any sequence of
`record_seen` / `CHLD` events such that no observation is *coalesced* into
the trace record at an index below `p` (`safeFrom`; the code's snapshot-
boundary guard establishes this whenever `p` is a snapshot's `trace_len`).
Then reverting the records after the prefix `p` in reverse order — each
record restoring its entry's `seen` to the recorded prior value — restores
every entry's `seen` exactly to its value at `s`, i.e. to the value held
immediately before the first retained record after the prefix was pushed.
Without the no-coalescing condition this fails (see the counterexample):
`seen` growth absorbed into the prefix's last record is not restored. -/
theorem trace_revert_restores (l : List MOp) (s : MState)
    (hne : s.procs ≠ []) (hwf : headTL s = s.trace.length)
    (hsafe : safeFrom s.trace.length s l = true) (hnp : MOp.pop ∉ l) :
    (runFrom s l).trace.take s.trace.length = s.trace ∧
    ∀ x, revertSeen ((runFrom s l).trace.drop s.trace.length)
        (runFrom s l).seen x = s.seen x := by
  have h := revert_restores_aux l s.trace.length s hne hwf le_rfl hsafe hnp
  refine ⟨h.1.trans (List.take_length _), fun x => (h.2 x).trans ?_⟩
  rw [List.drop_length]
  rfl

/-- Witness for `trace_revert_restores`: the root observes the primary
(`OPEN`), a snapshot is taken (`CHLD`), then new observations arrive; the
revert restores `seen` of entry 0 to its value at the snapshot point. -/
theorem trace_revert_restores_witness :
    (runFrom (runOps [MOp.obs 0 0 100, MOp.chld])
        [MOp.obs 0 7 700, MOp.obs 1 4 800]).trace.take 1
      = (runOps [MOp.obs 0 0 100, MOp.chld]).trace ∧
    revertSeen
      ((runFrom (runOps [MOp.obs 0 0 100, MOp.chld])
          [MOp.obs 0 7 700, MOp.obs 1 4 800]).trace.drop 1)
      (runFrom (runOps [MOp.obs 0 0 100, MOp.chld])
          [MOp.obs 0 7 700, MOp.obs 1 4 800]).seen 0 = 0 := by
  have h := trace_revert_restores [MOp.obs 0 7 700, MOp.obs 1 4 800]
    (runOps [MOp.obs 0 0 100, MOp.chld])
    (by decide) (by decide) (by decide) (by decide)
  have hlen : (runOps [MOp.obs 0 0 100, MOp.chld]).trace.length = 1 := by decide
  refine ⟨?_, ?_⟩
  · have h1 := h.1
    rw [hlen] at h1
    exact h1
  · have h2 := h.2 0
    rw [hlen] at h2
    rw [h2]
    decide

/-- C9, counterexample.  A realistic single-process run: the root opens the
primary (entry 0, prior `seen` −1), the engine's `SEEN 5` coalesces into the
same trace record (allowed: `process_count ≤ 1`), leaving a trace of length
1 with `seen = 5`.  A further coalesced `SEEN 9` and an `OPEN` of entry 1
extend the trace to length 2.  Reverting the records after prefix 1 yields
`seen = 9` for entry 0 — not 5, the value `seen` had when the trace first
had length 1 — so reverting does not restore `seen` "exactly to the value it
had when the trace had that prefix length". -/
theorem trace_revert_cex :
    (runOps [MOp.obs 0 0 100, MOp.obs 0 5 200]).trace.length = 1 ∧
    (runOps [MOp.obs 0 0 100, MOp.obs 0 5 200]).seen 0 = 5 ∧
    (runOps [MOp.obs 0 0 100, MOp.obs 0 5 200, MOp.obs 0 9 300,
      MOp.obs 1 0 400]).trace.length = 2 ∧
    revertSeen
      ((runOps [MOp.obs 0 0 100, MOp.obs 0 5 200, MOp.obs 0 9 300,
        MOp.obs 1 0 400]).trace.drop 1)
      (runOps [MOp.obs 0 0 100, MOp.obs 0 5 200, MOp.obs 0 9 300,
        MOp.obs 1 0 400]).seen 0 = 9 := by
  exact ⟨by decide, by decide, by decide, by decide⟩

/-! ## `need_snapshot` (C4)

The driver never snapshots while fences are pending (`fence_pos != -1`);
with at least one earlier snapshot it requires a new trace record since that
snapshot and compares against the time of the last record in the snapshot's
prefix; with only the root it compares against the root's start (time 0).
The `__APPLE__`-only output-started check is compiled out here (non-Apple
build). -/

def needSnapshot (fencePos : Int) (procs : List Nat) (tr : List TraceRec)
    (time : Int) : Bool :=
  if fencePos ≠ -1 then false
  else
    let process := procs.length - 1
    if 0 < process then
      if procs.getD process 0 = procs.getD (process - 1) 0 then false
      else
        decide (time > 500 +
          (tr.getD (procs.getD (process - 1) 0 - 1) default).time)
    else
      decide (time > 500 + (0 : Int))

/-- Modelled from the spec's words on the `need_snapshot()` policy, for
comparison with the code: never snapshot while any fence is pending;
otherwise snapshot iff the wall-clock time exceeds 500 ms past the time of
the last snapshot (the time of the last trace record in its prefix, which is
how the code and the spec's process printouts date a snapshot) — or past the
start of the root, time 0, if no snapshot exists — and, when a snapshot
exists, at least one new trace record has been produced since it. -/
def needSnapshotSpec (fencePos : Int) (procs : List Nat) (tr : List TraceRec)
    (time : Int) : Bool :=
  if fencePos ≠ -1 then false
  else
    let snapExists := 2 ≤ procs.length
    let lastTime : Int :=
      if snapExists then
        (tr.getD (procs.getD (procs.length - 2) 0 - 1) default).time
      else 0
    decide (time > 500 + lastTime) &&
      (!(decide snapExists) ||
        decide (procs.getD (procs.length - 2) 0 <
                procs.getD (procs.length - 1) 0))

/-- C4.  `need_snapshot` computes exactly the spec's policy.  The only
hypothesis is the fleet-monotonicity invariant (C2): the previous snapshot's
`trace_len` does not exceed the head's, so "has a new record been traced"
(`≠` in the code) coincides with "at least one new record" (`<` in the
spec). -/
theorem need_snapshot_eq_spec (fencePos : Int) (procs : List Nat)
    (tr : List TraceRec) (time : Int)
    (hmono : procs.getD (procs.length - 2) 0 ≤
             procs.getD (procs.length - 1) 0) :
    needSnapshot fencePos procs tr time
      = needSnapshotSpec fencePos procs tr time := by
  unfold needSnapshot needSnapshotSpec
  by_cases hf : fencePos ≠ -1
  · simp [hf]
  · simp only [hf, if_false]
    by_cases h2 : 2 ≤ procs.length
    · have hpos : 0 < procs.length - 1 := by omega
      have hidx : procs.length - 1 - 1 = procs.length - 2 := by omega
      simp only [if_pos hpos, if_pos h2, hidx, decide_eq_true_eq, h2,
        decide_True, Bool.not_true, Bool.false_or]
      by_cases heq : procs.getD (procs.length - 1) 0
          = procs.getD (procs.length - 2) 0
      · rw [List.getD_eq_getElem?_getD, List.getD_eq_getElem?_getD] at heq
        simp [heq]
      · have hlt : procs.getD (procs.length - 2) 0
            < procs.getD (procs.length - 1) 0 := by omega
        rw [List.getD_eq_getElem?_getD, List.getD_eq_getElem?_getD] at heq hlt
        simp [heq, hlt]
    · have hpos : ¬ 0 < procs.length - 1 := by omega
      simp [hpos, h2]

/-- Witness for `need_snapshot_eq_spec`: one snapshot beyond the root, a new
record since it, request 700 ms with the snapshot dated 100 ms. -/
theorem need_snapshot_eq_spec_witness :
    needSnapshot (-1) [1, 2] [⟨0, -1, 100⟩, ⟨0, 0, 200⟩] 700
      = needSnapshotSpec (-1) [1, 2] [⟨0, -1, 100⟩, ⟨0, 0, 200⟩] 700 :=
  need_snapshot_eq_spec (-1) [1, 2] [⟨0, -1, 100⟩, ⟨0, 0, 200⟩] 700 (by decide)

/-! ## The `READ` handler (C3, C8)

`answer_query`, `query::read` case.  After the bounds check (`r.pos >
data->len` aborts), `n = min(size, len − pos)`.  The *top* pending fence is
tested: if it is for this entry and `position < pos + n` the read crosses
it; then `n` becomes `position − pos` and the reply is `FORK` (popping the
fence) exactly when that is 0.  Otherwise `need_snapshot` may still force a
`FORK` (without popping).  A plain read replies with the `n`-byte slice of
the effective content. -/

structure FenceM where
  entry : Nat
  position : Int
deriving DecidableEq, Repr

inductive ReadResult where
  | abort
  | fork (popFence : Bool)
  | read (bytes : List Nat)
deriving DecidableEq, Repr

def answerRead (e : Nat) (data : List Nat) (pos size : Nat)
    (fence : Option FenceM) (needSnap : Bool) : ReadResult :=
  if pos > data.length then .abort
  else
    let n : Int := min (size : Int) ((data.length : Int) - (pos : Int))
    match fence with
    | some f =>
      if f.entry = e ∧ f.position < (pos : Int) + n then
        if n < 0 then .abort
        else
          let n2 : Int := f.position - (pos : Int)
          if n2 < 0 then .abort
          else if n2 = 0 then .fork true
          else if needSnap then .fork false
          else .read ((data.drop pos).take n2.toNat)
      else if needSnap then .fork false
      else .read ((data.drop pos).take n.toNat)
    | none =>
      if needSnap then .fork false
      else .read ((data.drop pos).take n.toNat)

/-- C8.  With no fence and no snapshot pressure: a `READ` whose `pos` lies
beyond the effective content length aborts the driver; otherwise the reply
carries exactly `min(size, len − pos)` bytes of the effective content,
starting at `pos`. -/
theorem read_bounds (e : Nat) (data : List Nat) (pos size : Nat) :
    (pos > data.length → answerRead e data pos size none false = .abort) ∧
    (pos ≤ data.length →
      answerRead e data pos size none false
        = .read ((data.drop pos).take (min size (data.length - pos))) ∧
      ((data.drop pos).take (min size (data.length - pos))).length
        = min size (data.length - pos)) := by
  constructor
  · intro h
    unfold answerRead
    rw [if_pos h]
  · intro h
    have hcast : min ((size : Int)) ((data.length : Int) - (pos : Int))
        = ((min size (data.length - pos) : Nat) : Int) := by
      rw [Nat.cast_min]
      congr 1
      omega
    have htoNat : (min ((size : Int)) ((data.length : Int) - (pos : Int))).toNat
        = min size (data.length - pos) := by
      rw [hcast]
      exact Int.toNat_natCast _
    constructor
    · unfold answerRead
      rw [if_neg (by omega)]
      simp only [htoNat, Bool.false_eq_true, if_false]
    · rw [List.length_take, List.length_drop]
      omega

/-- Witness for `read_bounds`: content `[10,20,30]`; `READ(pos=5)` aborts,
`READ(pos=1, size=5)` returns the 2 = min(5, 3−1) bytes `[20,30]`. -/
theorem read_bounds_witness :
    answerRead 0 [10, 20, 30] 5 1 none false = ReadResult.abort ∧
    answerRead 0 [10, 20, 30] 1 5 none false = ReadResult.read [20, 30] := by
  constructor
  · exact (read_bounds 0 [10, 20, 30] 5 1).1 (by decide)
  · exact (((read_bounds 0 [10, 20, 30] 1 5).2 (by decide)).1).trans (by decide)

/-- C3, counterexample.  Fence at position 4 on the read entry, `READ(pos=4,
size=0)` (content 6 bytes): the claim's crossing condition "fence position ≤
pos + size" holds (4 ≤ 4 + 0) with the fence exactly at `pos`, so the claim
requires a `FORK` reply popping the fence; the code's condition is the
strict `position < pos + min(size, len − pos)`, which fails, and the driver
answers the read normally (empty `READ`), keeping the fence. -/
theorem read_fence_cex :
    ((4 : Int) ≤ (4 : Int) + (0 : Int)) ∧
    answerRead 0 [1, 2, 3, 4, 5, 6] 4 0 (some ⟨0, 4⟩) false
      = ReadResult.read [] := by
  exact ⟨by decide, by decide⟩

/-- C3, amended.  For a `READ` on an entry with the top fence on it
(`pos ≤ len`; `need_snapshot` false, as it always is while fences are
pending): the read crosses the fence iff `position < pos + min(size, len −
pos)` (strict, with the size clamped to the content length first).  When it
crosses: if the fence is exactly at `pos` the reply is `FORK` and the fence
is popped; if the fence is ahead of `pos` the reply is a `READ` truncated to
`position − pos` bytes; a fence strictly behind `pos` aborts the driver.
A read that does not cross is answered normally. -/
theorem read_fence_crossing (e : Nat) (data : List Nat) (pos size : Nat)
    (f : FenceM) (hent : f.entry = e) (hpos : pos ≤ data.length) :
    (f.position < (pos : Int) + min (size : Int) ((data.length : Int) - (pos : Int)) →
      (f.position = (pos : Int) →
        answerRead e data pos size (some f) false = .fork true) ∧
      ((pos : Int) < f.position →
        answerRead e data pos size (some f) false
          = .read ((data.drop pos).take (f.position - (pos : Int)).toNat)) ∧
      (f.position < (pos : Int) →
        answerRead e data pos size (some f) false = .abort)) ∧
    (¬ f.position < (pos : Int) + min (size : Int) ((data.length : Int) - (pos : Int)) →
      answerRead e data pos size (some f) false
        = .read ((data.drop pos).take
            (min (size : Int) ((data.length : Int) - (pos : Int))).toNat)) := by
  have hn : (0 : Int) ≤ min (size : Int) ((data.length : Int) - (pos : Int)) := by
    refine le_min (by positivity) (by omega)
  constructor
  · intro hcross
    refine ⟨?_, ?_, ?_⟩
    · intro hat
      unfold answerRead
      rw [if_neg (by omega)]
      simp only
      rw [if_pos ⟨hent, hcross⟩, if_neg (by omega), if_neg (by omega),
        if_pos (by omega)]
    · intro hahead
      unfold answerRead
      rw [if_neg (by omega)]
      simp only
      rw [if_pos ⟨hent, hcross⟩, if_neg (by omega), if_neg (by omega),
        if_neg (by omega), if_neg (by simp)]
    · intro hbehind
      unfold answerRead
      rw [if_neg (by omega)]
      simp only
      rw [if_pos ⟨hent, hcross⟩, if_neg (by omega), if_pos (by omega)]
  · intro hnocross
    unfold answerRead
    rw [if_neg (by omega)]
    simp only
    rw [if_neg (by intro hand; exact hnocross hand.2), if_neg (by simp)]

/-- Witness for `read_fence_crossing`: content of 10 bytes, fence at 4.
`READ(pos=2, size=6)` is truncated to 2 bytes `[3,4]`; `READ(pos=4, size=6)`
is answered `FORK`, popping the fence. -/
theorem read_fence_crossing_witness :
    answerRead 0 [1, 2, 3, 4, 5, 6, 7, 8, 9, 10] 2 6 (some ⟨0, 4⟩) false
      = ReadResult.read [3, 4] ∧
    answerRead 0 [1, 2, 3, 4, 5, 6, 7, 8, 9, 10] 4 6 (some ⟨0, 4⟩) false
      = ReadResult.fork true := by
  constructor
  · have h := (((read_fence_crossing 0 [1, 2, 3, 4, 5, 6, 7, 8, 9, 10] 2 6
      ⟨0, 4⟩ (by decide) (by decide)).1 (by decide)).2.1) (by decide)
    rw [h]
    decide
  · have h := (((read_fence_crossing 0 [1, 2, 3, 4, 5, 6, 7, 8, 9, 10] 4 6
      ⟨0, 4⟩ (by decide) (by decide)).1 (by decide)).1) (by decide)
    exact h

/-! ## Fence planner (`compute_fences`, C5) -/

/-- `(x) & ~(64 - 1)` on a two's-complement int: round down to a multiple of
64.  Lean's `Int` division rounds toward −∞ for a positive divisor, matching
the bit mask. -/
def alignDown64 (x : Int) : Int := 64 * (x / 64)

/-- `possible_fence`: the record's prior `seen` is a finite observed position
(not `INT_MAX`, not −1) and its entry is readable (`saved.level ≤ FILE_READ`;
access levels are modelled as NONE = 0, READ = 1, WRITE = 2, the order the
code's comparisons use).  `levelOf` maps an entry id to its current level. -/
def possibleFence (levelOf : Nat → Nat) (te : TraceRec) : Bool :=
  !(decide (te.seen = INT_MAX) || decide (te.seen = -1)
    || decide (1 < levelOf te.entry))

/-- The `target_process` / `target_trace` computation of `compute_fences`:
walk process indices downward to the most recent process whose `trace_len`
is ≤ the reverted trace index; its `trace_len`, or −1 when every process is
beyond it. -/
def targetTraceOf (procs : List Nat) (trace : Int) : Int :=
  match procs.reverse.find? (fun tl => decide ((tl : Int) ≤ trace)) with
  | some tl => (tl : Int)
  | none => -1

/-- Fence 0's position: `offset = (offset - 64) & ~(64-1)`, raised to the
record's prior `seen` when that is larger, then `-1` clamped to `0`. -/
def fence0pos (seen offset : Int) : Int :=
  if (if alignDown64 (offset - 64) < seen then seen else alignDown64 (offset - 64)) = -1
  then 0
  else if alignDown64 (offset - 64) < seen then seen else alignDown64 (offset - 64)

/-- The backward walk of `compute_fences` (`while (trace > target_trace &&
fence_pos < 15)`).  `acc` holds fences 0..`fence_pos` in order, so
`fence_pos < 15` is `acc.length < 16`; the examined record is `trace[idx]`;
a placed fence gets position `seen` with −1 clamped to 0, after which `time`
recedes by `delta` and `delta` doubles.  The fuel is only a termination
device: called with fuel `(idx − tgt).toNat`, it runs out exactly when the
loop guard `tgt < idx` fails. -/
def fenceLoop (tr : List TraceRec) (levelOf : Nat → Nat) :
    Nat → Int → Int → Int → Int → List FenceM → List FenceM × Int
  | 0, idx, _, _, _, acc => (acc, idx)
  | fuel + 1, idx, tgt, time, delta, acc =>
    if tgt < idx ∧ acc.length < 16 then
      if (tr.getD idx.toNat default).time ≤ time ∧
          possibleFence levelOf (tr.getD idx.toNat default) = true then
        fenceLoop tr levelOf fuel (idx - 1) tgt (time - delta) (delta * 2)
          (acc ++ [⟨(tr.getD idx.toNat default).entry,
            if (tr.getD idx.toNat default).seen = -1 then 0
            else (tr.getD idx.toNat default).seen⟩])
      else
        fenceLoop tr levelOf fuel (idx - 1) tgt time delta acc
    else (acc, idx)

structure FencePlan where
  fences : List FenceM
  target : Int
  aborted : Bool
deriving Repr

/-- `compute_fences(ctx, self, trace, offset)`.  `trace ≤ 0` plans no fences
(`fence_pos = −1`) and returns `trace`; a head `trace_len` not beyond
`trace` is `mabort` (`aborted`).  Otherwise fence 0 goes on `trace[trace]`'s
entry at position `fence0pos`, and the backward walk places up to 15 more
fences; the final index is the target trace length. -/
def computeFences (procs : List Nat) (tr : List TraceRec)
    (levelOf : Nat → Nat) (trace : Int) (offset : Int) : FencePlan :=
  if trace ≤ 0 then ⟨[], trace, false⟩
  else if ((procs.getLast?.getD 0 : Nat) : Int) ≤ trace then ⟨[], trace, true⟩
  else
    ⟨(fenceLoop tr levelOf (trace - targetTraceOf procs trace).toNat trace
        (targetTraceOf procs trace) ((tr.getD trace.toNat default).time - 10) 50
        [⟨(tr.getD trace.toNat default).entry,
          fence0pos (tr.getD trace.toNat default).seen offset⟩]).1,
     (fenceLoop tr levelOf (trace - targetTraceOf procs trace).toNat trace
        (targetTraceOf procs trace) ((tr.getD trace.toNat default).time - 10) 50
        [⟨(tr.getD trace.toNat default).entry,
          fence0pos (tr.getD trace.toNat default).seen offset⟩]).2,
     false⟩

theorem getD_seen_ge (tr : List TraceRec) (hseen : ∀ r ∈ tr, -1 ≤ r.seen)
    (i : Nat) : -1 ≤ (tr.getD i default).seen := by
  by_cases hi : i < tr.length
  · rw [List.getD_eq_getElem tr default hi]
    exact hseen _ (List.getElem_mem hi)
  · rw [List.getD_eq_default tr default (by omega)]
    exact le_rfl

theorem fence0pos_eq_max (seen offset : Int) :
    fence0pos seen offset
      = if max (alignDown64 (offset - 64)) seen = -1 then 0
        else max (alignDown64 (offset - 64)) seen := by
  unfold fence0pos
  by_cases hlt : alignDown64 (offset - 64) < seen
  · rw [max_eq_right (le_of_lt hlt), if_pos hlt]
  · rw [max_eq_left (by omega), if_neg hlt]

theorem fence0pos_nonneg (seen offset : Int) (hs : -1 ≤ seen) :
    0 ≤ fence0pos seen offset := by
  unfold fence0pos
  by_cases hlt : alignDown64 (offset - 64) < seen
  · rw [if_pos hlt]
    by_cases hneg : seen = -1
    · rw [if_pos hneg]
    · rw [if_neg hneg]
      omega
  · rw [if_neg hlt]
    obtain ⟨c, hc⟩ : (64 : Int) ∣ alignDown64 (offset - 64) :=
      Dvd.intro _ rfl
    by_cases hneg : alignDown64 (offset - 64) = -1
    · rw [if_pos hneg]
    · rw [if_neg hneg]
      omega

theorem fenceLoop_bounds (tr : List TraceRec) (levelOf : Nat → Nat)
    (hseen : ∀ r ∈ tr, -1 ≤ r.seen) :
    ∀ (fuel : Nat) (idx tgt time delta : Int) (acc : List FenceM),
      acc.length ≤ 16 → (∀ fnc ∈ acc, 0 ≤ fnc.position) →
      (fenceLoop tr levelOf fuel idx tgt time delta acc).1.length ≤ 16 ∧
      ∀ fnc ∈ (fenceLoop tr levelOf fuel idx tgt time delta acc).1,
        0 ≤ fnc.position
  | 0, idx, tgt, time, delta, acc, hlen, hpos => ⟨hlen, hpos⟩
  | fuel + 1, idx, tgt, time, delta, acc, hlen, hpos => by
      unfold fenceLoop
      by_cases hg : tgt < idx ∧ acc.length < 16
      · rw [if_pos hg]
        by_cases hf : (tr.getD idx.toNat default).time ≤ time ∧
            possibleFence levelOf (tr.getD idx.toNat default) = true
        · rw [if_pos hf]
          refine fenceLoop_bounds tr levelOf hseen fuel _ _ _ _ _ ?_ ?_
          · rw [List.length_append, List.length_singleton]
            omega
          · intro fnc hfnc
            rcases List.mem_append.mp hfnc with hmem | hmem
            · exact hpos fnc hmem
            · simp only [List.mem_singleton] at hmem
              subst hmem
              show (0 : Int) ≤ if (tr.getD idx.toNat default).seen = -1 then 0
                else (tr.getD idx.toNat default).seen
              have hs := getD_seen_ge tr hseen idx.toNat
              by_cases hneg : (tr.getD idx.toNat default).seen = -1
              · rw [if_pos hneg]
              · rw [if_neg hneg]
                omega
        · rw [if_neg hf]
          exact fenceLoop_bounds tr levelOf hseen fuel _ _ _ _ _ hlen hpos
      · rw [if_neg hg]
        exact ⟨hlen, hpos⟩

theorem fenceLoop_head (tr : List TraceRec) (levelOf : Nat → Nat) :
    ∀ (fuel : Nat) (idx tgt time delta : Int) (acc : List FenceM),
      acc ≠ [] →
      (fenceLoop tr levelOf fuel idx tgt time delta acc).1.head? = acc.head?
  | 0, idx, tgt, time, delta, acc, _ => rfl
  | fuel + 1, idx, tgt, time, delta, acc, hne => by
      unfold fenceLoop
      by_cases hg : tgt < idx ∧ acc.length < 16
      · rw [if_pos hg]
        by_cases hf : (tr.getD idx.toNat default).time ≤ time ∧
            possibleFence levelOf (tr.getD idx.toNat default) = true
        · rw [if_pos hf,
            fenceLoop_head tr levelOf fuel _ _ _ _ _ (by simp)]
          rcases acc with _ | ⟨a, acc⟩
          · exact absurd rfl hne
          · simp
        · rw [if_neg hf]
          exact fenceLoop_head tr levelOf fuel _ _ _ _ _ hne
      · rw [if_neg hg]

theorem computeFences_eq_of (procs : List Nat) (tr : List TraceRec)
    (levelOf : Nat → Nat) (trace offset : Int) (h0 : 0 < trace)
    (hhd : trace < ((procs.getLast?.getD 0 : Nat) : Int)) :
    computeFences procs tr levelOf trace offset
      = ⟨(fenceLoop tr levelOf (trace - targetTraceOf procs trace).toNat trace
            (targetTraceOf procs trace)
            ((tr.getD trace.toNat default).time - 10) 50
            [⟨(tr.getD trace.toNat default).entry,
              fence0pos (tr.getD trace.toNat default).seen offset⟩]).1,
         (fenceLoop tr levelOf (trace - targetTraceOf procs trace).toNat trace
            (targetTraceOf procs trace)
            ((tr.getD trace.toNat default).time - 10) 50
            [⟨(tr.getD trace.toNat default).entry,
              fence0pos (tr.getD trace.toNat default).seen offset⟩]).2,
         false⟩ := by
  unfold computeFences
  rw [if_neg (by omega), if_neg (by omega)]

/-- C5, amended.  The fence planner emits at most 16 fences, every fence has
position ≥ 0 (under the trace invariant `seen ≥ −1`), and fence 0's
position is `max(align_down(offset − 64, 64), trace[t_r].seen)` with −1
clamped to 0: the 64-byte alignment is applied to `offset − 64` *before*
taking the maximum with the record's prior `seen`, not after. -/
theorem compute_fences_spec (procs : List Nat) (tr : List TraceRec)
    (levelOf : Nat → Nat) (trace offset : Int)
    (hseen : ∀ r ∈ tr, -1 ≤ r.seen) :
    (computeFences procs tr levelOf trace offset).fences.length ≤ 16 ∧
    (∀ fnc ∈ (computeFences procs tr levelOf trace offset).fences,
      0 ≤ fnc.position) ∧
    (0 < trace → trace < ((procs.getLast?.getD 0 : Nat) : Int) →
      (computeFences procs tr levelOf trace offset).fences.head?
        = some ⟨(tr.getD trace.toNat default).entry,
            if max (alignDown64 (offset - 64))
                (tr.getD trace.toNat default).seen = -1
            then 0
            else max (alignDown64 (offset - 64))
                (tr.getD trace.toNat default).seen⟩) := by
  by_cases h0 : trace ≤ 0
  · unfold computeFences
    rw [if_pos h0]
    exact ⟨by simp, by simp, fun h1 _ => absurd h1 (by omega)⟩
  · by_cases hhd : ((procs.getLast?.getD 0 : Nat) : Int) ≤ trace
    · unfold computeFences
      rw [if_neg h0, if_pos hhd]
      exact ⟨by simp, by simp, fun _ h2 => absurd h2 (by omega)⟩
    · rw [computeFences_eq_of procs tr levelOf trace offset (by omega) (by omega)]
      have hs := getD_seen_ge tr hseen trace.toNat
      have hloop := fenceLoop_bounds tr levelOf hseen
        (trace - targetTraceOf procs trace).toNat trace
        (targetTraceOf procs trace) ((tr.getD trace.toNat default).time - 10) 50
        [⟨(tr.getD trace.toNat default).entry,
          fence0pos (tr.getD trace.toNat default).seen offset⟩]
        (by simp)
        (by intro fnc hf
            simp only [List.mem_singleton] at hf
            subst hf
            exact fence0pos_nonneg _ offset hs)
      refine ⟨hloop.1, hloop.2, fun _ _ => ?_⟩
      rw [fenceLoop_head tr levelOf _ _ _ _ _ _ (by simp)]
      rw [List.head?_cons, fence0pos_eq_max]

/-- Witness for `compute_fences_spec`: head `trace_len` 2, reverted index 1
(record `seen = 90`), edit `offset = 100`: fence 0 lands at position 90. -/
theorem compute_fences_spec_witness :
    (computeFences [2] [⟨0, 0, 0⟩, ⟨1, 90, 100⟩] (fun _ => 1) 1 100).fences.length ≤ 16 ∧
    (∀ fnc ∈ (computeFences [2] [⟨0, 0, 0⟩, ⟨1, 90, 100⟩] (fun _ => 1) 1 100).fences,
      0 ≤ fnc.position) ∧
    (0 < (1 : Int) →
      (1 : Int) < (((([2] : List Nat).getLast?.getD 0 : Nat)) : Int) →
      (computeFences [2] [⟨0, 0, 0⟩, ⟨1, 90, 100⟩] (fun _ => 1) 1 100).fences.head?
        = some ⟨(([⟨0, 0, 0⟩, ⟨1, 90, 100⟩] : List TraceRec).getD
              ((1 : Int)).toNat default).entry,
            if max (alignDown64 ((100 : Int) - 64))
                (([⟨0, 0, 0⟩, ⟨1, 90, 100⟩] : List TraceRec).getD
                  ((1 : Int)).toNat default).seen = -1
            then 0
            else max (alignDown64 ((100 : Int) - 64))
                (([⟨0, 0, 0⟩, ⟨1, 90, 100⟩] : List TraceRec).getD
                  ((1 : Int)).toNat default).seen⟩) :=
  compute_fences_spec [2] [⟨0, 0, 0⟩, ⟨1, 90, 100⟩] (fun _ => 1) 1 100 (by decide)

/-- C5, counterexample.  Reverted record with prior `seen = 90`, edit
`offset = 100`: the code aligns first and maxes second, placing fence 0 at
position `max(align_down(36, 64), 90) = 90`; the claim's formula
`align_down(max(offset − 64, seen), 64)` gives `align_down(90) = 64 ≠ 90`. -/
theorem compute_fences_align_cex :
    (computeFences [2] [⟨0, 0, 0⟩, ⟨1, 90, 100⟩] (fun _ => 1) 1 100).fences.head?
      = some ⟨1, 90⟩ ∧
    alignDown64 (max ((100 : Int) - 64) 90) = 64 := by
  exact ⟨by decide, by decide⟩

/-! ## Handshake (C6)

Two implementations live in the repository: the C `channel_handshake`
(sprotocol.cpp) and its C++ port `Channel::handshake` (the one
`prepare_process` actually calls).  Both write the 12-byte server magic and
read 12 reply bytes; they differ in the short-read case.  `stream` is the
byte sequence the peer delivers before end-of-stream. -/

/-- The ASCII bytes of `"TEXPRESSOS01"`. -/
def serverMagic : List Nat := [84, 69, 88, 80, 82, 69, 83, 83, 79, 83, 48, 49]

/-- The ASCII bytes of `"TEXPRESSOC01"`. -/
def clientMagic : List Nat := [84, 69, 88, 80, 82, 69, 83, 83, 79, 67, 48, 49]

structure HandshakeResult where
  written : List Nat
  ok : Bool
deriving DecidableEq, Repr

/-- `channel_handshake` (C, sprotocol.cpp): `write_all` the server magic; if
`read_all` cannot deliver 12 bytes before end-of-stream, return failure;
otherwise succeed iff the 12 bytes equal the client magic (`strncmp`). -/
def channelHandshakeC (stream : List Nat) : HandshakeResult :=
  { written := serverMagic,
    ok := if stream.length < 12 then false
          else decide (stream.take 12 = clientMagic) }

/-- `Channel::handshake` (C++ port, same structure) — except that when
`load_size` fails (end-of-stream before 12 reply bytes) it returns TRUE:
`if (!this->load_size(fd, answer, LEN(HND_CLIENT))) return true;`. -/
def channelHandshakeCpp (stream : List Nat) : HandshakeResult :=
  { written := serverMagic,
    ok := if stream.length < 12 then true
          else decide (stream.take 12 = clientMagic) }

/-- The C implementation satisfies the claim exactly: it writes the server
magic, and succeeds iff exactly 12 bytes arrive and they equal
`TEXPRESSOC01`. -/
theorem channelHandshakeC_ok_iff (stream : List Nat) :
    (channelHandshakeC stream).written = serverMagic ∧
    ((channelHandshakeC stream).ok = true ↔
      12 ≤ stream.length ∧ stream.take 12 = clientMagic) := by
  refine ⟨rfl, ?_⟩
  unfold channelHandshakeC
  by_cases h : stream.length < 12
  · simp only [if_pos h]
    constructor
    · intro hfalse
      exact absurd hfalse (by simp)
    · intro hand
      omega
  · simp only [if_neg h, decide_eq_true_eq]
    constructor
    · intro htake
      exact ⟨by omega, htake⟩
    · intro hand
      exact hand.2

/-- C6: the C++ `Channel::handshake` used by the driver reports SUCCESS when
the stream ends before the 12 reply bytes arrive (here: the engine closes
the socket having sent nothing), while the claim — and the repository's own
C `channel_handshake` — require failure so that the connection is dropped. -/
theorem handshake_eof_bug :
    (channelHandshakeCpp []).ok = true ∧
    (channelHandshakeC []).ok = false ∧
    (channelHandshakeCpp []).written = serverMagic ∧
    (channelHandshakeCpp clientMagic).ok = true ∧
    (channelHandshakeCpp [0, 1, 2, 3, 4, 5, 6, 7, 8, 9, 10, 11]).ok = false := by
  exact ⟨by decide, by decide, by decide, by decide, by decide⟩

/-! ## VFS state and the `OPEN` (read mode) and `WRIT` (stdout) handlers
(C7, C10)

`EntryData` carries a `fileentry_t`'s three content layers and
`saved.level`; the `seen` field lives in `MState.seen` (it is what
`record_seen` updates).  Paths are identified by `Nat` ids.  `Sys` adds the
file-cell table and the `stdout` output slot of `state_t`. -/

structure EntryData where
  savedData : Option (List Nat)
  savedLevel : Nat
  editData : Option (List Nat)
  fsData : Option (List Nat)
deriving DecidableEq, Repr

instance : Inhabited EntryData := ⟨⟨none, 0, none, none⟩⟩

/-- `entry_data(e)`: `saved.data` if present, else `edit_data`, else
`fs_data`. -/
def entryData? (e : EntryData) : Option (List Nat) :=
  match e.savedData with
  | some d => some d
  | none =>
    match e.editData with
    | some d => some d
    | none => e.fsData

structure Sys where
  m : MState
  entries : Nat → Option EntryData
  cells : Nat → Option Nat
  stdoutSlot : Option Nat

/-- `filesystem_lookup_or_create`: idempotent; a fresh entry has no content
and `level = NONE` (its `seen` is −1, the default of `MState.seen`). -/
def lookupOrCreate (st : Sys) (path : Nat) : Sys :=
  match st.entries path with
  | some _ => st
  | none =>
    { st with entries := fun x => if x = path then some default else st.entries x }

/-- `!e || !entry_data(e)`: the entry is absent or has no effective
content. -/
def noEffectiveContent (st : Sys) (path : Nat) : Bool :=
  match st.entries path with
  | none => true
  | some e => (entryData? e).isNone

inductive OpenReply where
  | abort
  | pass
  | opened (path : Nat)
deriving DecidableEq, Repr

/-- `answer_query`, `query::open` case, for `mode[0] == 'r'` (the write-mode
branch, with its output-slot bookkeeping, is not needed by the claims).
Oracles: `resolve path` models `lookup_path` — a `stat` search of the real
filesystem over the inclusion path (`none` = nothing found) — and
`readFile p` models `fz_read_file`.

Control flow of the source: abort if the cell is occupied; if the entry has
no effective content and `lookup_path` fails, `lookup_or_create` the entry,
`record_seen(e, INT_MAX)`, reply `PASS` and stop — the cell is never bound.
Otherwise bind the cell, `record_seen(e, 0)` if never observed, load
`fs_data` when `saved.level < FILE_READ` (aborting if the file vanished and
there is no editor overlay), and reply `OPEN`. -/
def answerOpenRead (st : Sys) (resolve : Nat → Option Nat)
    (readFile : Nat → List Nat) (fid : Nat) (path : Nat) (time : Int) :
    OpenReply × Sys :=
  if (st.cells fid).isSome then (.abort, st)
  else if noEffectiveContent st path ∧ (resolve path).isNone then
    let st1 := lookupOrCreate st path
    (.pass, { st1 with m := recordSeen st1.m path INT_MAX time })
  else
    let st1 : Sys := lookupOrCreate st path
    let st2 : Sys := { st1 with
      cells := fun x => if x = fid then some path else st1.cells x }
    let st3 : Sys :=
      if st2.m.seen path < 0
      then { st2 with m := recordSeen st2.m path 0 time }
      else st2
    let e : EntryData := (st3.entries path).getD default
    if e.savedLevel < 1 then
      match resolve path with
      | none =>
        if e.editData.isNone then (.abort, st3)
        else
          (.opened path,
            { st3 with
              entries := fun x =>
                if x = path then some ({ e with savedLevel := 1 })
                else st3.entries x })
      | some fsPath =>
        (.opened path,
          { st3 with
            entries := fun x =>
              if x = path then
                some ({ e with fsData := some (readFile fsPath), savedLevel := 1 })
              else st3.entries x })
    else (.opened path, st3)

theorem recordSeen_seen (s : MState) (e : Nat) (v : Int) (t : Int)
    (hne : s.procs ≠ []) : (recordSeen s e v t).seen e = v := by
  unfold recordSeen
  rw [if_neg hne]
  by_cases hc : coalesces s e = true
  · rw [if_pos hc]
    show updSeen s.seen e v e = v
    unfold updSeen
    rw [if_pos rfl]
  · have hcf : coalesces s e = false := by simpa using hc
    rw [hcf]
    simp only [Bool.false_eq_true, if_false]
    show updSeen s.seen e v e = v
    unfold updSeen
    rw [if_pos rfl]

/-- C7.  An `OPEN` in read mode on a free cell, for a path whose entry has
no effective content and whose inclusion-path resolution fails: the driver
replies `PASS`, records `seen = INT_MAX` (+∞) on the entry, and binds no
cell to the requested `fid`. -/
theorem open_read_missing_pass (st : Sys) (resolve : Nat → Option Nat)
    (readFile : Nat → List Nat) (fid : Nat) (path : Nat) (time : Int)
    (hcell : st.cells fid = none)
    (hnodata : noEffectiveContent st path = true)
    (hresolve : resolve path = none)
    (hproc : st.m.procs ≠ []) :
    (answerOpenRead st resolve readFile fid path time).1 = .pass ∧
    (answerOpenRead st resolve readFile fid path time).2.m.seen path
      = INT_MAX ∧
    (answerOpenRead st resolve readFile fid path time).2.cells fid = none := by
  have hres : answerOpenRead st resolve readFile fid path time
      = (.pass, { lookupOrCreate st path with
          m := recordSeen (lookupOrCreate st path).m path INT_MAX time }) := by
    unfold answerOpenRead
    rw [if_neg (by rw [hcell]; simp),
      if_pos ⟨hnodata, by rw [hresolve]; simp⟩]
  have hm : (lookupOrCreate st path).m = st.m := by
    unfold lookupOrCreate
    rcases st.entries path with _ | e <;> rfl
  have hcells : (lookupOrCreate st path).cells = st.cells := by
    unfold lookupOrCreate
    rcases st.entries path with _ | e <;> rfl
  rw [hres]
  refine ⟨rfl, ?_, ?_⟩
  · show (recordSeen (lookupOrCreate st path).m path INT_MAX time).seen path
        = INT_MAX
    rw [hm]
    exact recordSeen_seen st.m path INT_MAX time hproc
  · show (lookupOrCreate st path).cells fid = none
    rw [hcells]
    exact hcell

/-- Witness for `open_read_missing_pass`: empty VFS, failing resolution,
`OPEN(fid = 3, path = 7)` in read mode. -/
theorem open_read_missing_pass_witness :
    (answerOpenRead ⟨initMState, fun _ => none, fun _ => none, none⟩
        (fun _ => none) (fun _ => []) 3 7 50).1 = OpenReply.pass ∧
    (answerOpenRead ⟨initMState, fun _ => none, fun _ => none, none⟩
        (fun _ => none) (fun _ => []) 3 7 50).2.m.seen 7 = INT_MAX ∧
    (answerOpenRead ⟨initMState, fun _ => none, fun _ => none, none⟩
        (fun _ => none) (fun _ => []) 3 7 50).2.cells 3 = none :=
  open_read_missing_pass ⟨initMState, fun _ => none, fun _ => none, none⟩
    (fun _ => none) (fun _ => []) 3 7 50 rfl rfl rfl (by decide)

/-! ## The `WRIT` handler for `fid == −1` (C10) -/

inductive WritReply where
  | abort
  | done
deriving DecidableEq, Repr

/-- The saved-buffer write of the `WRIT` handler: an overlong write
truncates the buffer to `pos` (`e->saved.data->len = w.pos`) and appends the
payload; otherwise the payload is patched in place. -/
def writeData (data : List Nat) (pos : Nat) (buf : List Nat) : List Nat :=
  if data.length < pos + buf.length then data.take pos ++ buf
  else data.take pos ++ buf ++ data.drop (pos + buf.length)

/-- `answer_query`, `query::writ` case for `w.fid == -1` (on the wire,
`(uint32_t)-1`): the stdout target.  The stdout slot's entry is used,
created on demand (`lookup_or_create("stdout")` with a fresh `WRITE`-level
buffer when it has none); a non-zero `pos` is `mabort`; otherwise `pos` is
forced to the buffer's current length and the write proceeds as usual
(`saved.level` must be `FILE_WRITE`, a missing buffer would crash).  The
decoder/editor notifications that follow are external effects and are not
modelled.  `stdoutPathId` is the id of the path `"stdout"`. -/
def answerWritStdout (st : Sys) (stdoutPathId : Nat) (pos0 : Nat)
    (buf : List Nat) : WritReply × Sys :=
  let p :=
    match st.stdoutSlot with
    | some eid => (eid, st)
    | none =>
        let stA := lookupOrCreate st stdoutPathId
        let e := (stA.entries stdoutPathId).getD default
        let e2 := if e.savedData.isNone
          then { e with savedData := some [], savedLevel := 2 } else e
        (stdoutPathId,
          { stA with
            entries := fun x => if x = stdoutPathId then some e2
              else stA.entries x,
            stdoutSlot := some stdoutPathId })
  if pos0 ≠ 0 then (.abort, p.2)
  else
    match p.2.entries p.1 with
    | none => (.abort, p.2)
    | some e =>
      match e.savedData with
      | none => (.abort, p.2)
      | some data =>
        if e.savedLevel ≠ 2 then (.abort, p.2)
        else
          (.done,
            { p.2 with
              entries := fun x =>
                if x = p.1 then
                  some ({ e with savedData := some (writeData data data.length buf) })
                else p.2.entries x })

theorem writeData_append (data buf : List Nat) :
    writeData data data.length buf = data ++ buf := by
  unfold writeData
  by_cases h : data.length < data.length + buf.length
  · rw [if_pos h, List.take_length]
  · have hb : buf = [] := List.eq_nil_of_length_eq_zero (by omega)
    subst hb
    rw [if_neg h, List.take_length]
    simp

/-- C10.  A `WRIT` with `fid = −1` (the stdout target) aborts whenever the
request's `pos` field is non-zero; with `pos = 0` the payload is appended at
the current end of the stdout entry's saved buffer. -/
theorem writ_stdout_append (st : Sys) (stdoutPathId : Nat) (buf : List Nat)
    (eid : Nat) (e : EntryData) (data : List Nat)
    (hslot : st.stdoutSlot = some eid)
    (hent : st.entries eid = some e)
    (hdata : e.savedData = some data)
    (hlvl : e.savedLevel = 2) :
    (∀ pos0 : Nat, pos0 ≠ 0 →
      (answerWritStdout st stdoutPathId pos0 buf).1 = .abort) ∧
    (answerWritStdout st stdoutPathId 0 buf).1 = .done ∧
    (answerWritStdout st stdoutPathId 0 buf).2.entries eid
      = some { e with savedData := some (data ++ buf) } := by
  have hpair : ∀ pos0 : Nat, answerWritStdout st stdoutPathId pos0 buf
      = (if pos0 ≠ 0 then ((.abort : WritReply), st)
         else
           (.done,
             { st with
               entries := fun x =>
                 if x = eid then
                   some ({ e with savedData := some (writeData data data.length buf) })
                 else st.entries x })) := by
    intro pos0
    unfold answerWritStdout
    conv => lhs; rw [hslot]
    by_cases hp : pos0 ≠ 0
    · rw [if_pos hp, if_pos hp]
    · rw [if_neg hp, if_neg hp]
      show (match st.entries eid with
        | none => ((.abort : WritReply), st)
        | some e =>
          match e.savedData with
          | none => (.abort, st)
          | some data =>
            if e.savedLevel ≠ 2 then (.abort, st)
            else
              (.done,
              { st with
                entries := fun x =>
                  if x = eid then
                    some ({ e with savedData := some (writeData data data.length buf) })
                  else st.entries x })) = _
      rw [hent]
      show (match e.savedData with
        | none => ((.abort : WritReply), st)
        | some data =>
          if e.savedLevel ≠ 2 then (.abort, st)
          else
            (.done,
              { st with
                entries := fun x =>
                  if x = eid then
                    some ({ e with savedData := some (writeData data data.length buf) })
                  else st.entries x })) = _
      rw [hdata]
      show (if e.savedLevel ≠ 2 then ((WritReply.abort : WritReply), st)
        else
          (WritReply.done,
            { st with
              entries := fun x =>
                if x = eid then
                  some ({ e with savedData := some (writeData data data.length buf) })
                else st.entries x })) = _
      rw [if_neg (by rw [hlvl]; simp)]
  refine ⟨?_, ?_, ?_⟩
  · intro pos0 hp
    rw [hpair pos0, if_pos hp]
  · rw [hpair 0, if_neg (by simp)]
  · rw [hpair 0, if_neg (by simp)]
    show (fun x =>
        if x = eid then
          some ({ e with savedData := some (writeData data data.length buf) })
        else st.entries x) eid = _
    rw [writeData_append]
    simp

/-- Witness for `writ_stdout_append`: stdout entry holding `[7, 8]`, payload
`[9]`: non-zero `pos` aborts; `pos = 0` appends, giving `[7, 8, 9]`. -/
theorem writ_stdout_append_witness :
    (∀ pos0 : Nat, pos0 ≠ 0 →
      (answerWritStdout
        ⟨initMState,
         fun x => if x = 0 then some ⟨some [7, 8], 2, none, none⟩ else none,
         fun _ => none, some 0⟩ 0 pos0 [9]).1 = WritReply.abort) ∧
    (answerWritStdout
        ⟨initMState,
         fun x => if x = 0 then some ⟨some [7, 8], 2, none, none⟩ else none,
         fun _ => none, some 0⟩ 0 0 [9]).1 = WritReply.done ∧
    (answerWritStdout
        ⟨initMState,
         fun x => if x = 0 then some ⟨some [7, 8], 2, none, none⟩ else none,
         fun _ => none, some 0⟩ 0 0 [9]).2.entries 0
      = some ⟨some [7, 8, 9], 2, none, none⟩ :=
  writ_stdout_append
    ⟨initMState,
     fun x => if x = 0 then some ⟨some [7, 8], 2, none, none⟩ else none,
     fun _ => none, some 0⟩ 0 [9] 0 ⟨some [7, 8], 2, none, none⟩ [7, 8]
    rfl (by simp) rfl rfl

end Texpresso
